import Mathlib

/-!
# mod-update-checklist: a shallow embedding of `main.go`

The program scans a mods folder (`detectMods`, `extractModID`), asks the Modrinth
registry for the game versions of every mod (`lookupVersions`) and keeps the
greatest semantic version of each answer (`findTopVerison`).

Go values are embedded as follows.

* A Go `string` is a Lean `String`.  The library code below walks a string byte by
  byte; the embedding walks it character by character.  Every byte test of the
  library (`'0' <= c && c <= '9'`, `c == '.'`, ...) only accepts ASCII bytes, UTF-8
  encodes ASCII characters as themselves and orders strings bytewise exactly as they
  are ordered by code point, so both walks agree on the UTF-8 strings that
  `encoding/json` produces.
* A Go slice is a `List`.
* `os.Exit(1)` (reached through `must` / `noerr`) is the result `none`.
* The bodies of `golang.org/x/mod/semver` (imported by `main.go`) are embedded from
  that library, function by function, under the namespace `semver`.
-/

namespace ModUpdateChecklist

/-! ## `golang.org/x/mod/semver`: the functions behind `IsValid`, `Compare` and `Sort` -/

namespace semver

/-- The byte test `'0' <= c && c <= '9'`. -/
def isDigit (c : Char) : Bool := decide ('0' ≤ c) && decide (c ≤ '9')

/-- `isIdentChar`: ASCII letters, digits and the hyphen. -/
def isIdentChar (c : Char) : Bool :=
  (decide ('A' ≤ c) && decide (c ≤ 'Z')) || (decide ('a' ≤ c) && decide (c ≤ 'z'))
    || (decide ('0' ≤ c) && decide (c ≤ '9')) || decide (c = '-')

/-- Go's `x < y` on strings: lexicographic comparison, a proper prefix being smaller. -/
def strLess : List Char → List Char → Bool
  | [], [] => false
  | [], _ :: _ => true
  | _ :: _, [] => false
  | a :: x, b :: y => if a < b then true else if a = b then strLess x y else false

/-- `parseInt`: the leading run of digits `t` of `v` and what follows it; it fails on
an empty run and on a run of several digits that starts with `0`. -/
def parseInt (v : List Char) : Option (List Char × List Char) :=
  match v with
  | [] => none
  | c :: cs =>
    if !isDigit c then none
    else
      let t := cs.takeWhile isDigit
      if c = '0' ∧ t ≠ [] then none
      else some (c :: t, cs.dropWhile isDigit)

/-- `isBadNum`: all digits, more than one of them, the first being `0`. -/
def isBadNum (v : List Char) : Bool :=
  let i := (v.takeWhile isDigit).length
  decide (i = v.length) && decide (i > 1) && decide (v.head? = some '0')

/-- `isNum`: all bytes are digits (true of the empty string). -/
def isNum (v : List Char) : Bool :=
  decide ((v.takeWhile isDigit).length = v.length)

/-- The loop of `parsePrerelease`, entered after the leading hyphen.  `cur` is
`v[start:i]`, the identifier read so far; the result is the text consumed from here on
and the unread rest. -/
def prereleaseLoop (cur : List Char) : List Char → Option (List Char × List Char)
  | [] => if cur = [] ∨ isBadNum cur then none else some ([], [])
  | c :: cs =>
    if c = '+' then
      if cur = [] ∨ isBadNum cur then none else some ([], c :: cs)
    else if !isIdentChar c ∧ c ≠ '.' then none
    else if c = '.' then
      if cur = [] ∨ isBadNum cur then none
      else (prereleaseLoop [] cs).map (fun r => (c :: r.1, r.2))
    else (prereleaseLoop (cur ++ [c]) cs).map (fun r => (c :: r.1, r.2))

/-- `parsePrerelease`: a hyphen and dot separated identifiers, up to a `+` or the end. -/
def parsePrerelease (v : List Char) : Option (List Char × List Char) :=
  match v with
  | [] => none
  | c :: cs =>
    if c ≠ '-' then none
    else (prereleaseLoop [] cs).map (fun r => (c :: r.1, r.2))

/-- The loop of `parseBuild`, entered after the leading plus sign; `cur` is
`v[start:i]`. -/
def buildLoop (cur : List Char) : List Char → Option (List Char × List Char)
  | [] => if cur = [] then none else some ([], [])
  | c :: cs =>
    if !isIdentChar c ∧ c ≠ '.' then none
    else if c = '.' then
      if cur = [] then none
      else (buildLoop [] cs).map (fun r => (c :: r.1, r.2))
    else (buildLoop (cur ++ [c]) cs).map (fun r => (c :: r.1, r.2))

/-- `parseBuild`: a plus sign and dot separated identifiers, up to the end. -/
def parseBuild (v : List Char) : Option (List Char × List Char) :=
  match v with
  | [] => none
  | c :: cs =>
    if c ≠ '+' then none
    else (buildLoop [] cs).map (fun r => (c :: r.1, r.2))

/-- The struct `parsed`. -/
structure parsed where
  major : List Char
  minor : List Char
  patch : List Char
  short : List Char
  prerelease : List Char
  build : List Char
deriving DecidableEq, Repr

/-- `parse`: `some p` stands for `(p, true)`, `none` for `ok == false`. -/
def parse (v : List Char) : Option parsed :=
  match v with
  | [] => none
  | c :: v1 =>
    if c ≠ 'v' then none
    else
      match parseInt v1 with
      | none => none
      | some (major, v2) =>
        match v2 with
        | [] => some ⟨major, ['0'], ['0'], ['.', '0', '.', '0'], [], []⟩
        | c2 :: v3 =>
          if c2 ≠ '.' then none
          else
            match parseInt v3 with
            | none => none
            | some (minor, v4) =>
              match v4 with
              | [] => some ⟨major, minor, ['0'], ['.', '0'], [], []⟩
              | c4 :: v5 =>
                if c4 ≠ '.' then none
                else
                  match parseInt v5 with
                  | none => none
                  | some (patch, v6) =>
                    match (if v6.head? = some '-' then parsePrerelease v6
                           else some ([], v6)) with
                    | none => none
                    | some (prerelease, v7) =>
                      match (if v7.head? = some '+' then parseBuild v7
                             else some ([], v7)) with
                      | none => none
                      | some (build, v8) =>
                        if v8 ≠ [] then none
                        else some ⟨major, minor, patch, [], prerelease, build⟩

/-- `IsValid` reports whether `v` is a valid semantic version string. -/
def IsValid (v : String) : Bool := (parse v.data).isSome

/-- `compareInt`: decimal strings without leading zeros, compared as numbers. -/
def compareInt (x y : List Char) : Int :=
  if x = y then 0
  else if x.length < y.length then -1
  else if x.length > y.length then 1
  else if strLess x y then -1
  else 1

/-- `nextIdent`: the text before the first dot, and the rest from that dot on. -/
def nextIdent : List Char → List Char × List Char
  | [] => ([], [])
  | c :: cs => if c = '.' then ([], c :: cs) else ((nextIdent cs).1.cons c, (nextIdent cs).2)

/-- The `for x != "" && y != ""` loop of `comparePrerelease` and the `if` after it.
Each turn shortens `x`, so `x.length` turns are enough; `fuel` bounds the turns. -/
def comparePrereleaseLoop : Nat → List Char → List Char → Int
  | 0, x, _ => if x = [] then -1 else 1
  | fuel + 1, x, y =>
    if x ≠ [] ∧ y ≠ [] then
      let dx := (nextIdent x.tail).1
      let dy := (nextIdent y.tail).1
      if dx ≠ dy then
        let ix := isNum dx
        let iy := isNum dy
        if ix ≠ iy then
          if ix then -1 else 1
        else if ix ∧ dx.length < dy.length then -1
        else if ix ∧ dx.length > dy.length then 1
        else if strLess dx dy then -1
        else 1
      else comparePrereleaseLoop fuel (nextIdent x.tail).2 (nextIdent y.tail).2
    else if x = [] then -1
    else 1

/-- `comparePrerelease`. -/
def comparePrerelease (x y : List Char) : Int :=
  if x = y then 0
  else if x = [] then 1
  else if y = [] then -1
  else comparePrereleaseLoop x.length x y

/-- `Compare`: -1, 0 or +1; an invalid version is below every valid one. -/
def Compare (v w : String) : Int :=
  match parse v.data, parse w.data with
  | none, none => 0
  | none, some _ => -1
  | some _, none => 1
  | some pv, some pw =>
    if compareInt pv.major pw.major ≠ 0 then compareInt pv.major pw.major
    else if compareInt pv.minor pw.minor ≠ 0 then compareInt pv.minor pw.minor
    else if compareInt pv.patch pw.patch ≠ 0 then compareInt pv.patch pw.patch
    else comparePrerelease pv.prerelease pw.prerelease

/-- `ByVersion.Less`: `Compare`, ties broken by the string order. -/
def Less (a b : String) : Bool :=
  if Compare a b ≠ 0 then decide (Compare a b < 0) else strLess a.data b.data

/-- A three-way comparison `c` (with values -1, 0, +1) that is a strict total order on
the values satisfying `D`. -/
structure IsOrderCmp {α : Type} (D : α → Prop) (c : α → α → Int) : Prop where
  range : ∀ a b, c a b = -1 ∨ c a b = 0 ∨ c a b = 1
  eq_zero : ∀ a b, D a → D b → (c a b = 0 ↔ a = b)
  swap : ∀ a b, D a → D b → c b a = - c a b
  trans : ∀ a b d, D a → D b → D d → c a b = -1 → c b d = -1 → c a d = -1

/-- Shorter first, then the string order: the order behind `compareInt` and behind the
comparison of two numeric identifiers. -/
def shortLexLt (x y : List Char) : Prop :=
  x.length < y.length ∨ (x.length = y.length ∧ strLess x y = true)

/-- The comparison of two pre-release identifiers made inside the loop of
`comparePrerelease` (0 for equal identifiers, which the loop skips). -/
def cmpIdent (dx dy : List Char) : Int :=
  if dx = dy then 0
  else if isNum dx ≠ isNum dy then
    if isNum dx then -1 else 1
  else if isNum dx ∧ dx.length < dy.length then -1
  else if isNum dx ∧ dx.length > dy.length then 1
  else if strLess dx dy then -1
  else 1

/-- The order on identifiers: numeric ones first, by value; then the others, by text. -/
def identLt (dx dy : List Char) : Prop :=
  (isNum dx = true ∧ isNum dy = false) ∨
  (isNum dx = true ∧ isNum dy = true ∧ shortLexLt dx dy) ∨
  (isNum dx = false ∧ isNum dy = false ∧ strLess dx dy = true)

/-- Two loop states that can be compared: when both are non-empty they start with the
same separator. -/
def sameSep (x y : List Char) : Prop := x ≠ [] → y ≠ [] → x.head? = y.head?

/-- What `parse` leaves in the field `prerelease`: nothing, or text led by a hyphen. -/
def prereleaseOK (x : List Char) : Prop := x = [] ∨ x.head? = some '-'

/-- Compare by `c1` and, on a tie, by `c2`: the chain of `if c != 0` in `Compare`. -/
def lexCmp {α β : Type} (c1 : α → α → Int) (c2 : β → β → Int) (p q : α × β) : Int :=
  if c1 p.1 q.1 ≠ 0 then c1 p.1 q.1 else c2 p.2 q.2

/-- An absent value below every present one: the `ok` tests of `Compare`. -/
def optCmp {α : Type} (c : α → α → Int) : Option α → Option α → Int
  | none, none => 0
  | none, some _ => -1
  | some _, none => 1
  | some a, some b => c a b

/-- The part of a version that `Compare` looks at: whether it parses and, if so, its
major, minor, patch and pre-release fields. -/
def verKey (v : String) : Option (List Char × List Char × List Char × List Char) :=
  (parse v.data).map (fun p => (p.major, p.minor, p.patch, p.prerelease))

/-- `Compare` on keys. -/
def keyCmp : Option (List Char × List Char × List Char × List Char) →
    Option (List Char × List Char × List Char × List Char) → Int :=
  optCmp (lexCmp compareInt (lexCmp compareInt (lexCmp compareInt comparePrerelease)))

/-- The keys that `verKey` produces. -/
def keyOK (o : Option (List Char × List Char × List Char × List Char)) : Prop :=
  ∀ a, o = some a → (True ∧ True ∧ True ∧ prereleaseOK a.2.2.2)

/-- The order `SortList` sorts by: `a` may stand before `b`. -/
def NotAfter (a b : String) : Prop := Less b a = false

instance NotAfter.decidable : DecidableRel NotAfter := fun a b =>
  inferInstanceAs (Decidable (Less b a = false))

/-- `SortList` is `semver.Sort`, that is `sort.Sort(ByVersion(list))` (in later
releases of the library `slices.SortFunc` with the same comparison): it rearranges
`list` so that no element is `Less` than an earlier one.  `Less` is a strict total
order on strings (`Less_irrefl`, `Less_trans`, `Less_total` below), so there is exactly
one such arrangement (`SortList_unique`), and insertion computes it. -/
def SortList (list : List String) : List String :=
  list.insertionSort NotAfter

end semver

/-! ## `main.go` -/

/-- The struct `mod`. -/
structure mod where
  fname : String
  modid : String
  version : String
deriving DecidableEq, Repr

/-- `findTopVerison` (`main.go`, lines 88-101). -/
def findTopVerison (versions : List String) : String :=
  let filtered := semver.SortList (versions.foldl
    (fun filtered v => if semver.IsValid ("v" ++ v) then filtered ++ ["v" ++ v] else filtered) [])
  if filtered.length = 0 then "no versions"
  else filtered.getD (filtered.length - 1) ""

/-- One element of `resp`, the registry response decoded by `lookupVersions`: the
field `slug` and the field `game_versions`. -/
structure respEntry where
  ID : String
  GameVersions : List String
deriving DecidableEq, Repr

/-- `lookupVersions` (`main.go`, lines 62-86) from the decoded response on: the request
is sent and its answer decoded into `resp` (any failure there ends the process), then
the matching loop of lines 78-85 runs.  The slice `mods` is updated in place; the
embedding returns its final content. -/
def lookupVersions (mods : List mod) (resp : List respEntry) : List mod :=
  resp.foldl (fun mods r =>
    let v := findTopVerison r.GameVersions
    mods.map (fun m => if m.modid = r.ID then { m with version := v } else m)) mods

/-- A value that `encoding/json` stores in an `any`; what an array or an object holds
plays no part in `extractModID`. -/
inductive jsonValue where
  | null
  | bool (b : Bool)
  | number (n : Int)
  | str (s : String)
  | array
  | object
deriving DecidableEq, Repr

/-- An entry of the archive (`zip.File`): its name and the outcome of
`json.NewDecoder(zipFile.Open()).Decode(&modInfo)` on it, `none` when opening or
decoding fails and otherwise the decoded map `modInfo`, read with `lookup`. -/
structure zipFile where
  Name : String
  decoded : Option (List (String × jsonValue))
deriving DecidableEq, Repr

/-- `extractModID` (`main.go`, lines 132-146) on the entries `modZip.File`; `none` is
the exit of the process in `must`. -/
def extractModID : List zipFile → Option String
  | [] => some ""
  | entry :: rest =>
    if entry.Name ≠ "fabric.mod.json" then extractModID rest
    else
      match entry.decoded with
      | none => none
      | some modInfo =>
        match modInfo.lookup "id" with
        | some (jsonValue.str modID) => some modID
        | _ => extractModID rest

/-- `strings.HasSuffix`. -/
def HasSuffix (s suffix : String) : Bool :=
  decide (s.data.length ≥ suffix.data.length) &&
    decide (s.data.drop (s.data.length - suffix.data.length) = suffix.data)

/-- An entry of the folder (`os.DirEntry`) with what
`zip.OpenReader(path.Join(*modsFolderPath, modFile.Name()))` gives for it: `none` for
an error, otherwise the entries of the archive. -/
structure dirEntry where
  Name : String
  IsDir : Bool
  opened : Option (List zipFile)
deriving DecidableEq, Repr

/-- The loop of `detectMods` (`main.go`, lines 106-128); `ret` is the slice built so
far. -/
def detectModsLoop (ret : List mod) : List dirEntry → Option (List mod)
  | [] => some ret
  | modFile :: rest =>
    if modFile.IsDir then detectModsLoop ret rest
    else if !HasSuffix modFile.Name ".jar" then detectModsLoop ret rest
    else
      match modFile.opened with
      | none => detectModsLoop ret rest
      | some modZip =>
        match extractModID modZip with
        | none => none
        | some modID =>
          if modID = "" then detectModsLoop ret rest
          else detectModsLoop (ret ++ [{ fname := modFile.Name, modid := modID, version := "" }]) rest

/-- `detectMods` (`main.go`, lines 103-130) on the listing that `os.ReadDir` returned. -/
def detectMods (modsFiles : List dirEntry) : Option (List mod) :=
  detectModsLoop [] modsFiles

/-- The slice `filtered` of `findTopVerison` before it is sorted. -/
def validOf (versions : List String) : List String :=
  (versions.map (fun v => "v" ++ v)).filter semver.IsValid

/-- What the matching loop does to one record: each response entry in turn overwrites
the version when the slug is the record's `modid`. -/
def resolveOne (resp : List respEntry) (m : mod) : mod :=
  resp.foldl (fun m r =>
    if m.modid = r.ID then { m with version := findTopVerison r.GameVersions } else m) m

/-- An entry that `detectMods` passes over: a directory, a name without ".jar", a file
that does not open as an archive, or an archive without an identifier. -/
def skipped (e : dirEntry) : Prop :=
  e.IsDir = true ∨ HasSuffix e.Name ".jar" = false ∨ e.opened = none ∨
    ∃ z, e.opened = some z ∧ extractModID z = some ""

/-- A mods folder: `a.jar` with the identifier "alpha", the text file `b.txt`, `c.jar`
without a metadata entry, a directory named `d.jar`, and `e.jar`, which does not open
as an archive. -/
def sampleFolder : List dirEntry :=
  [⟨"a.jar", false, some [⟨"META-INF/MANIFEST.MF", none⟩,
      ⟨"fabric.mod.json", some [("id", jsonValue.str "alpha"), ("version", jsonValue.str "1.0")]⟩]⟩,
   ⟨"b.txt", false, none⟩,
   ⟨"c.jar", false, some [⟨"META-INF/MANIFEST.MF", none⟩]⟩,
   ⟨"d.jar", true, none⟩,
   ⟨"e.jar", false, none⟩]

/-! ## The order of `golang.org/x/mod/semver` -/

namespace semver

theorem strLess_irrefl (x : List Char) : strLess x x = false := by
  induction x with
  | nil => rfl
  | cons a x ih => simp [strLess, ih]

theorem strLess_asymm : ∀ x y : List Char, strLess x y = true → strLess y x = false
  | [], [] => by simp [strLess]
  | [], _ :: _ => by simp [strLess]
  | _ :: _, [] => by simp [strLess]
  | a :: x, b :: y => by
    intro h
    simp only [strLess] at h ⊢
    rcases lt_trichotomy a b with hab | hab | hab
    · simp [hab, not_lt_of_lt hab, (ne_of_lt hab).symm]
    · subst hab
      simp only [lt_irrefl, if_false, if_true] at h ⊢
      exact strLess_asymm x y h
    · simp [not_lt_of_lt hab, (ne_of_lt hab).symm] at h

theorem strLess_connex : ∀ x y : List Char, x ≠ y → strLess x y = false → strLess y x = true
  | [], [] => by simp
  | [], _ :: _ => by simp [strLess]
  | _ :: _, [] => by simp [strLess]
  | a :: x, b :: y => by
    intro hne h
    simp only [strLess] at h ⊢
    rcases lt_trichotomy a b with hab | hab | hab
    · simp [hab] at h
    · subst hab
      simp only [lt_irrefl, if_false, if_true] at h ⊢
      exact strLess_connex x y (fun e => hne (by rw [e])) h
    · simp [hab]

theorem strLess_trans : ∀ x y z : List Char,
    strLess x y = true → strLess y z = true → strLess x z = true
  | [], y, [] => by
    intro h1 h2
    cases y <;> simp [strLess] at h1 h2
  | [], _, _ :: _ => by simp [strLess]
  | _ :: _, [], _ => by simp [strLess]
  | _ :: _, _ :: _, [] => by simp [strLess]
  | a :: x, b :: y, c :: z => by
    intro h1 h2
    simp only [strLess] at h1 h2 ⊢
    rcases lt_trichotomy a b with hab | hab | hab
    · rcases lt_trichotomy b c with hbc | hbc | hbc
      · simp [lt_trans hab hbc]
      · subst hbc; simp [hab]
      · simp [not_lt_of_lt hbc, (ne_of_lt hbc).symm] at h2
    · subst hab
      rcases lt_trichotomy a c with hbc | hbc | hbc
      · simp [hbc]
      · subst hbc
        simp only [lt_irrefl, if_false, if_true] at h1 h2 ⊢
        exact strLess_trans x y z h1 h2
      · simp [not_lt_of_lt hbc, (ne_of_lt hbc).symm] at h2
    · simp [not_lt_of_lt hab, (ne_of_lt hab).symm] at h1

theorem shortLexLt_asymm {x y : List Char} (h : shortLexLt x y) : ¬ shortLexLt y x := by
  rintro (h2 | ⟨h2, h3⟩)
  · rcases h with h | ⟨h, _⟩ <;> omega
  · rcases h with h | ⟨_, h⟩
    · omega
    · rw [strLess_asymm _ _ h] at h3; exact Bool.false_ne_true h3

theorem shortLexLt_connex {x y : List Char} (hne : x ≠ y) (h : ¬ shortLexLt x y) :
    shortLexLt y x := by
  unfold shortLexLt at h ⊢
  by_cases hl : y.length < x.length
  · exact Or.inl hl
  · right
    have hlen : x.length = y.length := by
      by_contra hc
      exact h (Or.inl (by omega))
    refine ⟨hlen.symm, strLess_connex x y hne ?_⟩
    cases hs : strLess x y
    · rfl
    · exact absurd (Or.inr ⟨hlen, hs⟩) h

theorem shortLexLt_trans {x y z : List Char} (h1 : shortLexLt x y) (h2 : shortLexLt y z) :
    shortLexLt x z := by
  unfold shortLexLt at *
  rcases h1 with h1 | ⟨h1, h1s⟩ <;> rcases h2 with h2 | ⟨h2, h2s⟩
  · left; omega
  · left; omega
  · left; omega
  · right; exact ⟨by omega, strLess_trans _ _ _ h1s h2s⟩

theorem compareInt_eq_neg_one {x y : List Char} : compareInt x y = -1 ↔ shortLexLt x y := by
  unfold compareInt shortLexLt
  by_cases hxy : x = y
  · subst hxy; simp [strLess_irrefl]
  · simp only [hxy, if_false]
    by_cases h1 : x.length < y.length
    · simp [h1]
    · by_cases h2 : x.length > y.length
      · simp [h1, h2]; omega
      · have h3 : x.length = y.length := by omega
        cases hs : strLess x y <;> simp [h1, h3]

theorem compareInt_range (x y : List Char) :
    compareInt x y = -1 ∨ compareInt x y = 0 ∨ compareInt x y = 1 := by
  unfold compareInt
  split_ifs <;> simp

theorem compareInt_eq_zero {x y : List Char} : compareInt x y = 0 ↔ x = y := by
  unfold compareInt
  split_ifs <;> simp [*]

/-- A comparison whose `-1` is a strict total order `lt` and whose `0` is equality. -/
theorem IsOrderCmp.of_lt {α : Type} {D : α → Prop} {c : α → α → Int} (lt : α → α → Prop)
    (range : ∀ a b, c a b = -1 ∨ c a b = 0 ∨ c a b = 1)
    (hz : ∀ a b, D a → D b → (c a b = 0 ↔ a = b))
    (hlt : ∀ a b, D a → D b → (c a b = -1 ↔ lt a b))
    (asymm : ∀ a b, D a → D b → lt a b → ¬ lt b a)
    (connex : ∀ a b, D a → D b → a ≠ b → ¬ lt a b → lt b a)
    (trans : ∀ a b d, D a → D b → D d → lt a b → lt b d → lt a d) : IsOrderCmp D c where
  range := range
  eq_zero := hz
  swap := by
    intro a b ha hb
    by_cases hab : a = b
    · subst hab
      rw [(hz a a ha ha).2 rfl]; rfl
    · have hba : b ≠ a := fun e => hab e.symm
      by_cases h : lt a b
      · have h1 := (hlt a b ha hb).2 h
        have h2 : c b a ≠ -1 := fun e => asymm a b ha hb h ((hlt b a hb ha).1 e)
        have h3 : c b a ≠ 0 := fun e => hba ((hz b a hb ha).1 e)
        rcases range b a with e | e | e
        · exact absurd e h2
        · exact absurd e h3
        · rw [e, h1]; rfl
      · have h1 := (hlt b a hb ha).2 (connex a b ha hb hab h)
        have h2 : c a b ≠ -1 := fun e => h ((hlt a b ha hb).1 e)
        have h3 : c a b ≠ 0 := fun e => hab ((hz a b ha hb).1 e)
        rcases range a b with e | e | e
        · exact absurd e h2
        · exact absurd e h3
        · rw [e, h1]
  trans := by
    intro a b d ha hb hd h1 h2
    exact (hlt a d ha hd).2 (trans a b d ha hb hd ((hlt a b ha hb).1 h1) ((hlt b d hb hd).1 h2))

theorem compareInt_isOrderCmp : IsOrderCmp (fun _ : List Char => True) compareInt :=
  IsOrderCmp.of_lt shortLexLt compareInt_range (fun _ _ _ _ => compareInt_eq_zero)
    (fun _ _ _ _ => compareInt_eq_neg_one) (fun _ _ _ _ h => shortLexLt_asymm h)
    (fun _ _ _ _ hne h => shortLexLt_connex hne h) (fun _ _ _ _ _ _ h1 h2 => shortLexLt_trans h1 h2)

theorem cmpIdent_range (x y : List Char) :
    cmpIdent x y = -1 ∨ cmpIdent x y = 0 ∨ cmpIdent x y = 1 := by
  unfold cmpIdent
  split_ifs <;> simp

theorem cmpIdent_eq_zero {x y : List Char} : cmpIdent x y = 0 ↔ x = y := by
  unfold cmpIdent
  split_ifs <;> simp [*]

theorem cmpIdent_eq_neg_one {x y : List Char} : cmpIdent x y = -1 ↔ identLt x y := by
  unfold cmpIdent identLt shortLexLt
  by_cases hxy : x = y
  · subst hxy; simp [strLess_irrefl]
  · simp only [hxy, if_false]
    cases hx : isNum x <;> cases hy : isNum y
    · cases hs : strLess x y <;> simp
    · simp
    · simp
    · by_cases h1 : x.length < y.length
      · simp [h1]
      · by_cases h2 : x.length > y.length
        · simp [h1, h2]; omega
        · have h3 : x.length = y.length := by omega
          cases hs : strLess x y <;> simp [h1, h3]

theorem identLt_asymm {x y : List Char} (h : identLt x y) : ¬ identLt y x := by
  unfold identLt at *
  rcases h with ⟨h1, h2⟩ | ⟨h1, h2, h3⟩ | ⟨h1, h2, h3⟩
  · simp [h1, h2]
  · simp only [h1, h2, true_and, Bool.true_eq_false, false_and, and_false, or_false, false_or]
    exact shortLexLt_asymm h3
  · simp [h1, h2, strLess_asymm _ _ h3]

theorem identLt_connex {x y : List Char} (hne : x ≠ y) (h : ¬ identLt x y) : identLt y x := by
  unfold identLt at *
  cases hx : isNum x <;> cases hy : isNum y <;> simp only [hx, hy] at h ⊢ <;> simp at h ⊢
  · exact strLess_connex x y hne (by simpa using h)
  · exact shortLexLt_connex hne h

theorem identLt_trans {x y z : List Char} (h1 : identLt x y) (h2 : identLt y z) :
    identLt x z := by
  unfold identLt at *
  cases hx : isNum x <;> cases hy : isNum y <;> cases hz : isNum z <;>
    simp only [hx, hy, hz] at h1 h2 ⊢ <;> simp at h1 h2 ⊢
  · exact strLess_trans _ _ _ h1 h2
  · exact shortLexLt_trans h1 h2

theorem cmpIdent_isOrderCmp : IsOrderCmp (fun _ : List Char => True) cmpIdent :=
  IsOrderCmp.of_lt identLt cmpIdent_range (fun _ _ _ _ => cmpIdent_eq_zero)
    (fun _ _ _ _ => cmpIdent_eq_neg_one) (fun _ _ _ _ h => identLt_asymm h)
    (fun _ _ _ _ hne h => identLt_connex hne h) (fun _ _ _ _ _ _ h1 h2 => identLt_trans h1 h2)

theorem comparePrereleaseLoop_succ (n : Nat) (x y : List Char) :
    comparePrereleaseLoop (n + 1) x y =
      if x ≠ [] ∧ y ≠ [] then
        if (nextIdent x.tail).1 ≠ (nextIdent y.tail).1 then
          cmpIdent (nextIdent x.tail).1 (nextIdent y.tail).1
        else comparePrereleaseLoop n (nextIdent x.tail).2 (nextIdent y.tail).2
      else if x = [] then -1 else 1 := by
  simp only [comparePrereleaseLoop, cmpIdent]
  split_ifs <;> rfl

theorem nextIdent_append (l : List Char) : (nextIdent l).1 ++ (nextIdent l).2 = l := by
  induction l with
  | nil => rfl
  | cons c cs ih =>
    unfold nextIdent
    split_ifs
    · rfl
    · simp [ih]

theorem nextIdent_rest (l : List Char) :
    (nextIdent l).2 = [] ∨ (nextIdent l).2.head? = some '.' := by
  induction l with
  | nil => left; rfl
  | cons c cs ih =>
    unfold nextIdent
    split_ifs with h
    · right; simp [h]
    · exact ih

theorem nextIdent_length (l : List Char) : (nextIdent l).2.length ≤ l.length := by
  have h := congrArg List.length (nextIdent_append l)
  rw [List.length_append] at h
  omega

theorem nextIdent_tail_length {x : List Char} (hx : x ≠ []) :
    (nextIdent x.tail).2.length < x.length := by
  cases x with
  | nil => exact absurd rfl hx
  | cons c cs =>
    have := nextIdent_length cs
    simp only [List.tail_cons, List.length_cons]
    omega

theorem comparePrereleaseLoop_range (n : Nat) (x y : List Char) :
    comparePrereleaseLoop n x y = -1 ∨ comparePrereleaseLoop n x y = 1 := by
  induction n generalizing x y with
  | zero => unfold comparePrereleaseLoop; split_ifs <;> simp
  | succ n ih =>
    rw [comparePrereleaseLoop_succ]
    split_ifs with h1 h2 h3
    · rcases cmpIdent_range (nextIdent x.tail).1 (nextIdent y.tail).1 with e | e | e
      · exact Or.inl e
      · exact absurd (cmpIdent_eq_zero.1 e) h2
      · exact Or.inr e
    · exact ih _ _
    · simp
    · simp

theorem comparePrereleaseLoop_step (n : Nat) (x y : List Char)
    (h : x.length ≤ n ∨ y.length ≤ n) :
    comparePrereleaseLoop (n + 1) x y = comparePrereleaseLoop n x y := by
  induction n generalizing x y with
  | zero =>
    have hxy : ¬ (x ≠ [] ∧ y ≠ []) := by
      rintro ⟨hx, hy⟩
      rcases h with h | h
      · exact hx (List.length_eq_zero.1 (by omega))
      · exact hy (List.length_eq_zero.1 (by omega))
    rw [comparePrereleaseLoop_succ, if_neg hxy]
    rfl
  | succ n ih =>
    rw [comparePrereleaseLoop_succ (n + 1) x y, comparePrereleaseLoop_succ n x y]
    by_cases hxy : x ≠ [] ∧ y ≠ []
    · have hx := nextIdent_tail_length hxy.1
      have hy := nextIdent_tail_length hxy.2
      have h3 : (nextIdent x.tail).2.length ≤ n ∨ (nextIdent y.tail).2.length ≤ n := by
        rcases h with h | h
        · left; omega
        · right; omega
      rw [ih _ _ h3]
    · simp only [if_neg hxy]

theorem comparePrereleaseLoop_fuel (n m : Nat) (x y : List Char)
    (hn : x.length ≤ n ∨ y.length ≤ n) (hm : n ≤ m) :
    comparePrereleaseLoop m x y = comparePrereleaseLoop n x y := by
  induction m with
  | zero =>
    have : n = 0 := by omega
    subst this; rfl
  | succ m ih =>
    by_cases hnm : n = m + 1
    · subst hnm; rfl
    · rw [comparePrereleaseLoop_step m x y (by omega)]
      exact ih (by omega)

theorem comparePrereleaseLoop_swap (n : Nat) (x y : List Char)
    (hn : x.length ≤ n ∨ y.length ≤ n) (hne : x ≠ y) (hs : sameSep x y) :
    comparePrereleaseLoop n y x = - comparePrereleaseLoop n x y := by
  induction n generalizing x y with
  | zero =>
    unfold comparePrereleaseLoop
    by_cases hx : x = []
    · subst hx
      have hy : y ≠ [] := fun e => hne e.symm
      simp [hy]
    · have hy : y = [] := by
        rcases h : hn with h | h
        · exact absurd (List.length_eq_zero.1 (by omega)) hx
        · exact List.length_eq_zero.1 (by omega)
      subst hy
      simp [hx]
  | succ n ih =>
    rw [comparePrereleaseLoop_succ n x y, comparePrereleaseLoop_succ n y x]
    by_cases hx : x = []
    · subst hx
      have hy : y ≠ [] := fun e => hne e.symm
      simp [hy]
    · by_cases hy : y = []
      · subst hy
        simp [hx]
      · have hand : x ≠ [] ∧ y ≠ [] := ⟨hx, hy⟩
        have hand2 : y ≠ [] ∧ x ≠ [] := ⟨hy, hx⟩
        rw [if_pos hand, if_pos hand2]
        by_cases hd : (nextIdent x.tail).1 = (nextIdent y.tail).1
        · have hd2 : ¬ (nextIdent y.tail).1 ≠ (nextIdent x.tail).1 := fun h => h hd.symm
          have hd1 : ¬ (nextIdent x.tail).1 ≠ (nextIdent y.tail).1 := fun h => h hd
          rw [if_neg hd1, if_neg hd2]
          have hlx := nextIdent_tail_length hx
          have hly := nextIdent_tail_length hy
          have h3 : (nextIdent x.tail).2.length ≤ n ∨ (nextIdent y.tail).2.length ≤ n := by
            rcases hn with h | h
            · left; omega
            · right; omega
          apply ih _ _ h3
          · intro e
            apply hne
            have hxa := nextIdent_append x.tail
            have hya := nextIdent_append y.tail
            rw [hd, e, hya] at hxa
            have hh := hs hx hy
            cases x with
            | nil => exact absurd rfl hx
            | cons a x =>
              cases y with
              | nil => exact absurd rfl hy
              | cons b y =>
                simp only [List.tail_cons] at hxa
                simp only [List.head?_cons, Option.some.injEq] at hh
                rw [hh, hxa]
          · intro h1 h2
            rcases nextIdent_rest x.tail with e | e
            · exact absurd e h1
            · rcases nextIdent_rest y.tail with e2 | e2
              · exact absurd e2 h2
              · rw [e, e2]
        · have hd2 : (nextIdent y.tail).1 ≠ (nextIdent x.tail).1 := fun h => hd h.symm
          rw [if_pos hd, if_pos hd2]
          exact cmpIdent_isOrderCmp.swap _ _ trivial trivial

theorem comparePrereleaseLoop_trans (n : Nat) (x y z : List Char)
    (hx : x.length ≤ n) (hy : y.length ≤ n) (hz : z.length ≤ n)
    (h1 : comparePrereleaseLoop n x y = -1) (h2 : comparePrereleaseLoop n y z = -1) :
    comparePrereleaseLoop n x z = -1 := by
  induction n generalizing x y z with
  | zero =>
    have : x = [] := List.length_eq_zero.1 (by omega)
    subst this
    rfl
  | succ n ih =>
    rw [comparePrereleaseLoop_succ] at h1 h2 ⊢
    by_cases hxe : x = []
    · subst hxe; simp
    · by_cases hye : y = []
      · subst hye; simp [hxe] at h1
      · by_cases hze : z = []
        · subst hze; simp [hye] at h2
        · rw [if_pos ⟨hxe, hye⟩] at h1
          rw [if_pos ⟨hye, hze⟩] at h2
          rw [if_pos ⟨hxe, hze⟩]
          have hlx := nextIdent_tail_length hxe
          have hly := nextIdent_tail_length hye
          have hlz := nextIdent_tail_length hze
          by_cases hxy : (nextIdent x.tail).1 = (nextIdent y.tail).1
          · by_cases hyz : (nextIdent y.tail).1 = (nextIdent z.tail).1
            · have hxz : (nextIdent x.tail).1 = (nextIdent z.tail).1 := hxy.trans hyz
              rw [if_neg (fun h => h hxy)] at h1
              rw [if_neg (fun h => h hyz)] at h2
              rw [if_neg (fun h => h hxz)]
              exact ih _ _ _ (by omega) (by omega) (by omega) h1 h2
            · rw [if_pos hyz] at h2
              rw [hxy, if_pos hyz]
              exact h2
          · rw [if_pos hxy] at h1
            by_cases hyz : (nextIdent y.tail).1 = (nextIdent z.tail).1
            · rw [← hyz, if_pos hxy]
              exact h1
            · rw [if_pos hyz] at h2
              have h3 := cmpIdent_isOrderCmp.trans _ _ _ trivial trivial trivial h1 h2
              have hxz : (nextIdent x.tail).1 ≠ (nextIdent z.tail).1 := by
                intro e
                rw [e, cmpIdent_eq_zero.2 rfl] at h3
                exact absurd h3 (by decide)
              rw [if_pos hxz]
              exact h3

theorem comparePrerelease_eq_loop {x y : List Char} (hne : x ≠ y) (hx : x ≠ []) (hy : y ≠ [])
    (n : Nat) (hn : x.length ≤ n) :
    comparePrerelease x y = comparePrereleaseLoop n x y := by
  unfold comparePrerelease
  rw [if_neg hne, if_neg hx, if_neg hy]
  exact (comparePrereleaseLoop_fuel x.length n x y (Or.inl (le_refl _)) hn).symm

theorem comparePrerelease_range (x y : List Char) :
    comparePrerelease x y = -1 ∨ comparePrerelease x y = 0 ∨ comparePrerelease x y = 1 := by
  unfold comparePrerelease
  split_ifs
  · simp
  · simp
  · simp
  · rcases comparePrereleaseLoop_range x.length x y with e | e
    · exact Or.inl e
    · exact Or.inr (Or.inr e)

theorem comparePrerelease_eq_zero {x y : List Char} : comparePrerelease x y = 0 ↔ x = y := by
  unfold comparePrerelease
  split_ifs with h1 h2 h3
  · simp [h1]
  · simp [h1]
  · simp [h1]
  · rcases comparePrereleaseLoop_range x.length x y with e | e <;> simp [e, h1]

theorem sameSep_of_prereleaseOK {x y : List Char} (hx : prereleaseOK x) (hy : prereleaseOK y) :
    sameSep x y := by
  intro h1 h2
  rcases hx with e | e
  · exact absurd e h1
  · rcases hy with e2 | e2
    · exact absurd e2 h2
    · rw [e, e2]

theorem comparePrerelease_swap {x y : List Char} (hx : prereleaseOK x) (hy : prereleaseOK y) :
    comparePrerelease y x = - comparePrerelease x y := by
  by_cases hxy : x = y
  · subst hxy
    rw [comparePrerelease_eq_zero.2 rfl]; rfl
  · have hyx : y ≠ x := fun e => hxy e.symm
    by_cases hxe : x = []
    · subst hxe
      simp [comparePrerelease, hyx, hxy]
    · by_cases hye : y = []
      · subst hye
        simp [comparePrerelease, hyx, hxy]
      · rw [comparePrerelease_eq_loop hxy hxe hye (max x.length y.length) (le_max_left _ _),
          comparePrerelease_eq_loop hyx hye hxe (max x.length y.length) (le_max_right _ _)]
        exact comparePrereleaseLoop_swap _ x y (Or.inl (le_max_left _ _)) hxy
          (sameSep_of_prereleaseOK hx hy)

theorem comparePrerelease_trans {x y z : List Char} (hx : prereleaseOK x) (hy : prereleaseOK y)
    (h1 : comparePrerelease x y = -1) (h2 : comparePrerelease y z = -1) :
    comparePrerelease x z = -1 := by
  have hxy : x ≠ y := by
    intro e; rw [comparePrerelease_eq_zero.2 e] at h1; exact absurd h1 (by decide)
  have hyz : y ≠ z := by
    intro e; rw [comparePrerelease_eq_zero.2 e] at h2; exact absurd h2 (by decide)
  have hxe : x ≠ [] := by
    intro e; subst e
    simp [comparePrerelease, hxy] at h1
  have hye : y ≠ [] := by
    intro e; subst e
    simp [comparePrerelease, hyz] at h2
  by_cases hze : z = []
  · subst hze
    simp [comparePrerelease, hxe]
  · have hN1 : x.length ≤ max x.length (max y.length z.length) := le_max_left _ _
    have hN2 : y.length ≤ max x.length (max y.length z.length) :=
      le_trans (le_max_left _ _) (le_max_right _ _)
    have hN3 : z.length ≤ max x.length (max y.length z.length) :=
      le_trans (le_max_right _ _) (le_max_right _ _)
    rw [comparePrerelease_eq_loop hxy hxe hye _ hN1] at h1
    rw [comparePrerelease_eq_loop hyz hye hze _ hN2] at h2
    have h3 := comparePrereleaseLoop_trans _ x y z hN1 hN2 hN3 h1 h2
    have hxz : x ≠ z := by
      intro e
      subst e
      have h4 := comparePrereleaseLoop_swap _ x y (Or.inl hN1) hxy
        (sameSep_of_prereleaseOK hx hy)
      rw [h1, h2] at h4
      exact absurd h4 (by decide)
    rw [comparePrerelease_eq_loop hxz hxe hze _ hN1]
    exact h3

theorem comparePrerelease_isOrderCmp : IsOrderCmp prereleaseOK comparePrerelease where
  range := comparePrerelease_range
  eq_zero := fun _ _ _ _ => comparePrerelease_eq_zero
  swap := fun _ _ ha hb => comparePrerelease_swap ha hb
  trans := fun _ _ _ ha hb _ h1 h2 => comparePrerelease_trans ha hb h1 h2

theorem IsOrderCmp.lex {α β : Type} {D1 : α → Prop} {D2 : β → Prop} {c1 : α → α → Int}
    {c2 : β → β → Int} (h1 : IsOrderCmp D1 c1) (h2 : IsOrderCmp D2 c2) :
    IsOrderCmp (fun p : α × β => D1 p.1 ∧ D2 p.2) (lexCmp c1 c2) where
  range := by
    intro a b
    unfold lexCmp
    split_ifs
    · exact h1.range _ _
    · exact h2.range _ _
  eq_zero := by
    rintro ⟨a1, a2⟩ ⟨b1, b2⟩ ⟨ha1, ha2⟩ ⟨hb1, hb2⟩
    unfold lexCmp
    simp only [Prod.mk.injEq]
    split_ifs with h
    · have := h1.eq_zero a1 b1 ha1 hb1
      constructor
      · intro e; exact absurd e h
      · intro e; exact absurd (this.2 e.1) h
    · have e1 := (h1.eq_zero a1 b1 ha1 hb1).1 (not_not.1 h)
      have := h2.eq_zero a2 b2 ha2 hb2
      constructor
      · intro e; exact ⟨e1, this.1 e⟩
      · intro e; exact this.2 e.2
  swap := by
    rintro ⟨a1, a2⟩ ⟨b1, b2⟩ ⟨ha1, ha2⟩ ⟨hb1, hb2⟩
    unfold lexCmp
    have e1 := h1.swap a1 b1 ha1 hb1
    have e2 := h2.swap a2 b2 ha2 hb2
    simp only
    rw [e1, e2]
    split_ifs with h3 h4 h4
    · rfl
    · exact absurd (by omega) h3
    · exact absurd (by omega) h3
    · rfl
  trans := by
    rintro ⟨a1, a2⟩ ⟨b1, b2⟩ ⟨d1, d2⟩ ⟨ha1, ha2⟩ ⟨hb1, hb2⟩ ⟨hd1, hd2⟩
    unfold lexCmp
    simp only
    intro hab hbd
    by_cases e1 : c1 a1 b1 = 0
    · have ea := (h1.eq_zero a1 b1 ha1 hb1).1 e1
      subst ea
      rw [if_neg (not_not.2 e1)] at hab
      by_cases e2 : c1 a1 d1 = 0
      · rw [if_neg (not_not.2 e2)] at hbd ⊢
        exact h2.trans a2 b2 d2 ha2 hb2 hd2 hab hbd
      · rw [if_pos e2] at hbd ⊢
        exact hbd
    · rw [if_pos e1] at hab
      by_cases e2 : c1 b1 d1 = 0
      · have eb := (h1.eq_zero b1 d1 hb1 hd1).1 e2
        subst eb
        rw [if_pos e1]
        exact hab
      · rw [if_pos e2] at hbd
        have h3 := h1.trans a1 b1 d1 ha1 hb1 hd1 hab hbd
        rw [if_pos (by omega)]
        exact h3

theorem IsOrderCmp.option {α : Type} {D : α → Prop} {c : α → α → Int} (h : IsOrderCmp D c) :
    IsOrderCmp (fun o : Option α => ∀ a, o = some a → D a) (optCmp c) where
  range := by
    intro a b
    cases a <;> cases b <;> simp [optCmp]
    exact h.range _ _
  eq_zero := by
    intro a b ha hb
    cases a <;> cases b <;> simp [optCmp]
    exact h.eq_zero _ _ (ha _ rfl) (hb _ rfl)
  swap := by
    intro a b ha hb
    cases a <;> cases b <;> simp [optCmp]
    exact h.swap _ _ (ha _ rfl) (hb _ rfl)
  trans := by
    intro a b d ha hb hd
    cases a <;> cases b <;> cases d <;> simp [optCmp]
    exact h.trans _ _ _ (ha _ rfl) (hb _ rfl) (hd _ rfl)

theorem parsePrerelease_head {v t r : List Char} (h : parsePrerelease v = some (t, r)) :
    t.head? = some '-' := by
  unfold parsePrerelease at h
  cases v with
  | nil => simp at h
  | cons c cs =>
    simp only at h
    split_ifs at h with hc
    simp only [Option.map_eq_some'] at h
    obtain ⟨a, _, ha⟩ := h
    have : c = '-' := not_not.1 hc
    rw [← (Prod.mk.inj ha).1, this]
    rfl

theorem parse_prereleaseOK {v : List Char} {p : parsed} (h : parse v = some p) :
    prereleaseOK p.prerelease := by
  unfold parse at h
  repeat' split at h
  all_goals first
    | (cases h; done)
    | (cases h; exact Or.inl rfl)
    | skip
  rename_i hpre _ _ _ _ _
  cases h
  split_ifs at hpre
  · exact Or.inr (parsePrerelease_head hpre)
  · cases hpre
    exact Or.inl rfl

theorem keyCmp_isOrderCmp : IsOrderCmp keyOK keyCmp :=
  (compareInt_isOrderCmp.lex (compareInt_isOrderCmp.lex
    (compareInt_isOrderCmp.lex comparePrerelease_isOrderCmp))).option

theorem verKey_ok (v : String) : keyOK (verKey v) := by
  intro a ha
  unfold verKey at ha
  cases hp : parse v.data with
  | none => rw [hp] at ha; cases ha
  | some p =>
    rw [hp] at ha
    cases ha
    exact ⟨trivial, trivial, trivial, parse_prereleaseOK hp⟩

theorem Compare_eq_keyCmp (v w : String) : Compare v w = keyCmp (verKey v) (verKey w) := by
  unfold Compare verKey keyCmp
  cases parse v.data <;> cases parse w.data <;> rfl

theorem Compare_range (v w : String) : Compare v w = -1 ∨ Compare v w = 0 ∨ Compare v w = 1 := by
  rw [Compare_eq_keyCmp]; exact keyCmp_isOrderCmp.range _ _

theorem Compare_swap (v w : String) : Compare w v = - Compare v w := by
  rw [Compare_eq_keyCmp, Compare_eq_keyCmp]
  exact keyCmp_isOrderCmp.swap _ _ (verKey_ok v) (verKey_ok w)

theorem Compare_eq_zero (v w : String) : Compare v w = 0 ↔ verKey v = verKey w := by
  rw [Compare_eq_keyCmp]
  exact keyCmp_isOrderCmp.eq_zero _ _ (verKey_ok v) (verKey_ok w)

theorem Compare_self (v : String) : Compare v v = 0 := (Compare_eq_zero v v).2 rfl

theorem Compare_trans {u v w : String} (h1 : Compare u v = -1) (h2 : Compare v w = -1) :
    Compare u w = -1 := by
  rw [Compare_eq_keyCmp] at h1 h2 ⊢
  exact keyCmp_isOrderCmp.trans _ _ _ (verKey_ok u) (verKey_ok v) (verKey_ok w) h1 h2

theorem Compare_congr_left {u v : String} (h : Compare u v = 0) (w : String) :
    Compare u w = Compare v w := by
  rw [Compare_eq_keyCmp u w, Compare_eq_keyCmp v w, (Compare_eq_zero u v).1 h]

theorem Compare_congr_right {u v : String} (h : Compare u v = 0) (w : String) :
    Compare w u = Compare w v := by
  rw [Compare_eq_keyCmp w u, Compare_eq_keyCmp w v, (Compare_eq_zero u v).1 h]

theorem Less_eq_true {a b : String} :
    Less a b = true ↔ Compare a b = -1 ∨ (Compare a b = 0 ∧ strLess a.data b.data = true) := by
  unfold Less
  rcases Compare_range a b with e | e | e <;> simp [e]

theorem Less_irrefl (a : String) : Less a a = false := by
  cases h : Less a a
  · rfl
  · rcases Less_eq_true.1 h with e | ⟨_, e⟩
    · rw [Compare_self] at e; exact absurd e (by decide)
    · rw [strLess_irrefl] at e; exact absurd e (by decide)

theorem Less_trans {a b c : String} (h1 : Less a b = true) (h2 : Less b c = true) :
    Less a c = true := by
  rw [Less_eq_true] at h1 h2 ⊢
  rcases h1 with h1 | ⟨h1, s1⟩ <;> rcases h2 with h2 | ⟨h2, s2⟩
  · exact Or.inl (Compare_trans h1 h2)
  · left; rw [Compare_congr_right h2 a] at h1; exact h1
  · left; rw [← Compare_congr_left h1 c] at h2; exact h2
  · right
    refine ⟨?_, strLess_trans _ _ _ s1 s2⟩
    rw [Compare_congr_left h1 c]; exact h2

theorem Less_asymm {a b : String} (h : Less a b = true) : Less b a = false := by
  cases h2 : Less b a
  · rfl
  · have := Less_trans h h2
    rw [Less_irrefl] at this
    exact absurd this (by decide)

theorem Less_total {a b : String} (hne : a ≠ b) (h : Less a b = false) : Less b a = true := by
  rw [Less_eq_true]
  have hs := Compare_swap a b
  rcases Compare_range a b with e | e | e
  · have : Less a b = true := Less_eq_true.2 (Or.inl e)
    rw [h] at this; exact absurd this (by decide)
  · right
    refine ⟨by rw [hs, e]; rfl, ?_⟩
    apply strLess_connex
    · intro e2; exact hne (String.ext e2)
    · cases hs2 : strLess a.data b.data
      · rfl
      · have : Less a b = true := Less_eq_true.2 (Or.inr ⟨e, hs2⟩)
        rw [h] at this; exact absurd this (by decide)
  · left; rw [hs, e]

instance NotAfter.isTotal : IsTotal String NotAfter where
  total := by
    intro a b
    unfold NotAfter
    cases h : Less b a
    · exact Or.inl rfl
    · exact Or.inr (Less_asymm h)

instance NotAfter.isTrans : IsTrans String NotAfter where
  trans := by
    intro a b c h1 h2
    unfold NotAfter at *
    cases h : Less c a
    · rfl
    · by_cases hab : a = b
      · subst hab; rw [h] at h2; exact absurd h2 (by decide)
      · have h3 := Less_total hab (by
          cases h4 : Less a b
          · rfl
          · have := Less_trans h h4
            rw [h2] at this; exact absurd this (by decide))
        rw [h1] at h3
        exact absurd h3 (by decide)

instance NotAfter.isAntisymm : IsAntisymm String NotAfter where
  antisymm := by
    intro a b h1 h2
    unfold NotAfter at *
    by_contra hne
    have := Less_total hne h2
    rw [h1] at this
    exact absurd this (by decide)

theorem SortList_perm (list : List String) : (SortList list).Perm list :=
  List.perm_insertionSort _ list

theorem SortList_sorted (list : List String) : (SortList list).Sorted NotAfter :=
  List.sorted_insertionSort _ list

/-- The arrangement that `sort.Sort` must produce is unique: any permutation of `list`
in which no element is `Less` than an earlier one is `SortList list`. -/
theorem SortList_unique {list out : List String} (hp : out.Perm list)
    (hs : out.Pairwise (fun a b => Less b a = false)) : out = SortList list :=
  List.eq_of_perm_of_sorted (r := NotAfter) (hp.trans (SortList_perm list).symm) hs
    (SortList_sorted list)

end semver

/-! ## `findTopVerison`, `lookupVersions`, `extractModID`, `detectMods` -/

theorem filtered_foldl (versions acc : List String) :
    versions.foldl
      (fun filtered v => if semver.IsValid ("v" ++ v) then filtered ++ ["v" ++ v] else filtered)
      acc = acc ++ validOf versions := by
  induction versions generalizing acc with
  | nil => simp [validOf]
  | cons v vs ih =>
    rw [List.foldl_cons, ih]
    unfold validOf
    by_cases h : semver.IsValid ("v" ++ v) = true
    · simp [h, List.filter_cons]
    · simp [h, List.filter_cons]

theorem findTopVerison_eq (versions : List String) :
    findTopVerison versions =
      ((semver.SortList (validOf versions)).getLast?).getD "no versions" := by
  unfold findTopVerison
  rw [filtered_foldl, List.nil_append]
  simp only
  cases h : semver.SortList (validOf versions) with
  | nil => rfl
  | cons a l =>
    rw [if_neg (by simp)]
    have hlt : (a :: l).length - 1 < (a :: l).length := by simp
    rw [List.getLast?_eq_getElem?, List.getD_eq_getElem?_getD, List.getElem?_eq_getElem hlt]
    rfl

theorem mem_validOf {versions : List String} {r : String} :
    r ∈ validOf versions ↔ ∃ l ∈ versions, r = "v" ++ l ∧ semver.IsValid ("v" ++ l) = true := by
  unfold validOf
  simp only [List.mem_filter, List.mem_map]
  constructor
  · rintro ⟨⟨l, hl, rfl⟩, hv⟩
    exact ⟨l, hl, rfl, hv⟩
  · rintro ⟨l, hl, rfl, hv⟩
    exact ⟨⟨l, hl, rfl⟩, hv⟩

theorem v_append_ne_sentinel (l : String) : "v" ++ l ≠ "no versions" := by
  intro h
  have h2 := congrArg String.data h
  rw [String.data_append] at h2
  simp at h2

theorem sorted_getLast_max {l : List String} {r : String} (hs : l.Sorted semver.NotAfter)
    (hr : l.getLast? = some r) : ∀ x ∈ l, semver.Less r x = false := by
  obtain ⟨ys, rfl⟩ := List.getLast?_eq_some_iff.1 hr
  intro x hx
  rcases List.mem_append.1 hx with h | h
  · exact (List.pairwise_append.1 hs).2.2 x h r (List.mem_singleton.2 rfl)
  · rw [List.mem_singleton.1 h]
    exact semver.Less_irrefl r

theorem not_greater_of_not_Less {r x : String} (h : semver.Less r x = false) :
    ¬ semver.Compare x r > 0 := by
  intro hc
  have hsw := semver.Compare_swap x r
  have h1 : semver.Compare r x = -1 := by
    rcases semver.Compare_range x r with e | e | e
    · rw [e] at hc; exact absurd hc (by decide)
    · rw [e] at hc; exact absurd hc (by decide)
    · rw [hsw, e]
  have := semver.Less_eq_true.2 (Or.inl h1)
  rw [h] at this
  exact absurd this (by decide)

theorem SortList_eq_nil {l : List String} : semver.SortList l = [] ↔ l = [] := by
  constructor
  · intro h
    have := semver.SortList_perm l
    rw [h] at this
    exact List.Perm.eq_nil this.symm
  · intro h; subst h; rfl

theorem findTopVerison_of_none {versions : List String}
    (h : ∀ l ∈ versions, semver.IsValid ("v" ++ l) = false) :
    findTopVerison versions = "no versions" := by
  have hv : validOf versions = [] := by
    apply List.eq_nil_iff_forall_not_mem.2
    intro r hr
    obtain ⟨l, hl, _, hvl⟩ := mem_validOf.1 hr
    rw [h l hl] at hvl
    exact absurd hvl (by decide)
  rw [findTopVerison_eq, hv]
  rfl

theorem findTopVerison_of_some {versions : List String}
    (h : ∃ l ∈ versions, semver.IsValid ("v" ++ l) = true) :
    findTopVerison versions ∈ validOf versions ∧
      ∀ x ∈ validOf versions, semver.Less (findTopVerison versions) x = false := by
  rw [findTopVerison_eq]
  obtain ⟨l, hl, hvl⟩ := h
  have hmem : "v" ++ l ∈ validOf versions := mem_validOf.2 ⟨l, hl, rfl, hvl⟩
  cases hg : (semver.SortList (validOf versions)).getLast? with
  | none =>
    rw [List.getLast?_eq_none_iff, SortList_eq_nil] at hg
    rw [hg] at hmem
    exact absurd hmem (List.not_mem_nil _)
  | some r =>
    simp only [Option.getD_some]
    have hr : r ∈ semver.SortList (validOf versions) := List.mem_of_getLast?_eq_some hg
    refine ⟨(semver.SortList_perm _).mem_iff.1 hr, ?_⟩
    intro x hx
    exact sorted_getLast_max (semver.SortList_sorted _) hg x
      ((semver.SortList_perm _).mem_iff.2 hx)

/-- C1: `findTopVerison` returns "no versions" exactly when no label `l` of the list
makes `"v" ++ l` a valid semantic version; otherwise it returns `"v" ++ l` for a label
`l` of the list, that string is a valid semantic version, and no valid `"v" ++ l'` of
the list compares strictly greater than it under `semver.Compare`. -/
theorem findTopVerison_spec (versions : List String) :
    (findTopVerison versions = "no versions" ↔
      ∀ l ∈ versions, semver.IsValid ("v" ++ l) = false) ∧
    ((∃ l ∈ versions, semver.IsValid ("v" ++ l) = true) →
      (∃ l ∈ versions, findTopVerison versions = "v" ++ l) ∧
      semver.IsValid (findTopVerison versions) = true ∧
      ∀ l' ∈ versions, semver.IsValid ("v" ++ l') = true →
        ¬ semver.Compare ("v" ++ l') (findTopVerison versions) > 0) := by
  have key : (∃ l ∈ versions, semver.IsValid ("v" ++ l) = true) →
      (∃ l ∈ versions, findTopVerison versions = "v" ++ l) ∧
      semver.IsValid (findTopVerison versions) = true ∧
      ∀ l' ∈ versions, semver.IsValid ("v" ++ l') = true →
        ¬ semver.Compare ("v" ++ l') (findTopVerison versions) > 0 := by
    intro h
    obtain ⟨hmem, hmax⟩ := findTopVerison_of_some h
    obtain ⟨l, hl, he, hv⟩ := mem_validOf.1 hmem
    refine ⟨⟨l, hl, he⟩, by rw [he]; exact hv, ?_⟩
    intro l' hl' hv'
    exact not_greater_of_not_Less (hmax _ (mem_validOf.2 ⟨l', hl', rfl, hv'⟩))
  refine ⟨⟨?_, findTopVerison_of_none⟩, key⟩
  intro hs l hl
  cases hv : semver.IsValid ("v" ++ l)
  · rfl
  · obtain ⟨⟨l2, _, he⟩, _, _⟩ := key ⟨l, hl, hv⟩
    rw [hs] at he
    exact absurd he.symm (v_append_ne_sentinel l2)

/-- Witness of C1: the empty list gives "no versions", and the statement holds on the
labels "1.2.0", "bogus", "1.10.0" and "1.9.0". -/
theorem findTopVerison_spec_witness :
    findTopVerison [] = "no versions" ∧
    findTopVerison ["1.2.0", "bogus", "1.10.0", "1.9.0"] = "v1.10.0" ∧
    (∃ l ∈ ["1.2.0", "bogus", "1.10.0", "1.9.0"],
      findTopVerison ["1.2.0", "bogus", "1.10.0", "1.9.0"] = "v" ++ l) ∧
    semver.IsValid (findTopVerison ["1.2.0", "bogus", "1.10.0", "1.9.0"]) = true ∧
    ∀ l' ∈ ["1.2.0", "bogus", "1.10.0", "1.9.0"], semver.IsValid ("v" ++ l') = true →
      ¬ semver.Compare ("v" ++ l') (findTopVerison ["1.2.0", "bogus", "1.10.0", "1.9.0"]) > 0 :=
  ⟨(findTopVerison_spec []).1.2 (fun _ h => absurd h (List.not_mem_nil _)), by decide,
    (findTopVerison_spec ["1.2.0", "bogus", "1.10.0", "1.9.0"]).2 ⟨"1.2.0", by decide⟩⟩

/-- Counterexample to C2: on ["1.2.0","1.10.0","1.9.0"] the result is not the bare
label "1.10.0", and on ["1.20","1.20.1","bogus"] it is not "1.20.1". -/
theorem findTopVerison_bare_label_counterexample :
    findTopVerison ["1.2.0", "1.10.0", "1.9.0"] ≠ "1.10.0" ∧
    findTopVerison ["1.20", "1.20.1", "bogus"] ≠ "1.20.1" := by
  decide

/-- C2 (amended): on ["1.2.0","1.10.0","1.9.0"] `findTopVerison` returns "v1.10.0" and
on ["1.20","1.20.1","bogus"] it returns "v1.20.1": the numerically greatest label,
with the prefix "v" that was prepended to validate it. -/
theorem findTopVerison_examples :
    findTopVerison ["1.2.0", "1.10.0", "1.9.0"] = "v1.10.0" ∧
    findTopVerison ["1.20", "1.20.1", "bogus"] = "v1.20.1" := by
  decide

theorem validOf_perm {l1 l2 : List String} (h : l1.Perm l2) :
    (validOf l1).Perm (validOf l2) :=
  (h.map _).filter _

/-- C3: two lists of labels that are permutations of each other give the same result,
also when they hold distinct labels that compare equal as semantic versions. -/
theorem findTopVerison_perm (l1 l2 : List String) (h : l1.Perm l2) :
    findTopVerison l1 = findTopVerison l2 := by
  rw [findTopVerison_eq, findTopVerison_eq]
  have : semver.SortList (validOf l1) = semver.SortList (validOf l2) :=
    List.eq_of_perm_of_sorted (r := semver.NotAfter)
      (((semver.SortList_perm _).trans (validOf_perm h)).trans (semver.SortList_perm _).symm)
      (semver.SortList_sorted _) (semver.SortList_sorted _)
  rw [this]

/-- Witness of C3: "1.0" and "1.0.0+build" compare equal as versions; both orders of
the list give "v1.0.0+build". -/
theorem findTopVerison_perm_witness :
    findTopVerison ["1.0", "1.0.0+build", "0.9"] = findTopVerison ["1.0.0+build", "1.0", "0.9"] ∧
    findTopVerison ["1.0", "1.0.0+build", "0.9"] = "v1.0.0+build" ∧
    semver.Compare "v1.0" "v1.0.0+build" = 0 :=
  ⟨findTopVerison_perm ["1.0", "1.0.0+build", "0.9"] ["1.0.0+build", "1.0", "0.9"]
    (List.Perm.swap _ _ _), by decide, by decide⟩

theorem validOf_filter (versions : List String) :
    validOf (versions.filter (fun l => semver.IsValid ("v" ++ l))) = validOf versions := by
  unfold validOf
  induction versions with
  | nil => rfl
  | cons v vs ih =>
    by_cases h : semver.IsValid ("v" ++ v) = true
    · simp only [List.filter_cons, h, if_true, List.map_cons]
      rw [ih]
    · have h2 : semver.IsValid ("v" ++ v) = false := by
        cases hv : semver.IsValid ("v" ++ v)
        · rfl
        · exact absurd hv h
      simp only [List.filter_cons, h2, List.map_cons, Bool.false_eq_true, if_false]
      exact ih

theorem validOf_append (l1 l2 : List String) : validOf (l1 ++ l2) = validOf l1 ++ validOf l2 := by
  simp [validOf]

/-- C4: `findTopVerison` of a list equals `findTopVerison` of the list without the
labels `l` for which `"v" ++ l` is not a valid semantic version, and an invalid label
inserted or deleted at any position does not change the result. -/
theorem findTopVerison_filter (versions : List String) :
    findTopVerison versions =
      findTopVerison (versions.filter (fun l => semver.IsValid ("v" ++ l))) ∧
    ∀ (front back : List String) (l : String), semver.IsValid ("v" ++ l) = false →
      findTopVerison (front ++ l :: back) = findTopVerison (front ++ back) := by
  constructor
  · rw [findTopVerison_eq, findTopVerison_eq, validOf_filter]
  · intro front back l hl
    rw [findTopVerison_eq, findTopVerison_eq, validOf_append, validOf_append]
    have : validOf (l :: back) = validOf back := by
      simp [validOf, List.filter_cons, hl]
    rw [this]

theorem lookupVersions_eq_map (mods : List mod) (resp : List respEntry) :
    lookupVersions mods resp = mods.map (resolveOne resp) := by
  unfold lookupVersions resolveOne
  induction resp generalizing mods with
  | nil => simp
  | cons r rs ih =>
    rw [List.foldl_cons, ih]
    simp only [List.map_map]
    apply List.map_congr_left
    intro m _
    simp only [Function.comp, List.foldl_cons]

theorem resolveOne_cons (r : respEntry) (rs : List respEntry) (m : mod) :
    resolveOne (r :: rs) m =
      resolveOne rs
        (if m.modid = r.ID then { m with version := findTopVerison r.GameVersions } else m) :=
  rfl

theorem resolveOne_fname (resp : List respEntry) (m : mod) :
    (resolveOne resp m).fname = m.fname := by
  induction resp generalizing m with
  | nil => rfl
  | cons r rs ih =>
    rw [resolveOne_cons, ih]
    split_ifs <;> rfl

theorem resolveOne_modid (resp : List respEntry) (m : mod) :
    (resolveOne resp m).modid = m.modid := by
  induction resp generalizing m with
  | nil => rfl
  | cons r rs ih =>
    rw [resolveOne_cons, ih]
    split_ifs <;> rfl

theorem resolveOne_unmatched (resp : List respEntry) (m : mod)
    (h : ∀ r ∈ resp, m.modid ≠ r.ID) : resolveOne resp m = m := by
  induction resp generalizing m with
  | nil => rfl
  | cons r rs ih =>
    rw [resolveOne_cons, if_neg (h r (List.mem_cons_self _ _))]
    exact ih m (fun r' hr' => h r' (List.mem_cons_of_mem _ hr'))

theorem resolveOne_append (front back : List respEntry) (m : mod) :
    resolveOne (front ++ back) m = resolveOne back (resolveOne front m) := by
  unfold resolveOne
  rw [List.foldl_append]

theorem resolveOne_last (front back : List respEntry) (r : respEntry) (m : mod)
    (hr : m.modid = r.ID) (hback : ∀ r' ∈ back, m.modid ≠ r'.ID) :
    resolveOne (front ++ r :: back) m =
      { m with version := findTopVerison r.GameVersions } := by
  rw [resolveOne_append, resolveOne_cons]
  have hm : (resolveOne front m).modid = r.ID := by rw [resolveOne_modid]; exact hr
  rw [if_pos hm, resolveOne_unmatched]
  · have h1 := resolveOne_fname front m
    have h2 := resolveOne_modid front m
    cases hres : resolveOne front m with
    | mk f i v =>
      rw [hres] at h1 h2
      cases m with
      | mk f2 i2 v2 =>
        simp only at h1 h2
        subst h1 h2
        rfl
  · intro r' hr'
    show (resolveOne front m).modid ≠ r'.ID
    rw [resolveOne_modid]
    exact hback r' hr'

theorem exists_last_match (resp : List respEntry) (id : String)
    (h : ∃ r ∈ resp, id = r.ID) :
    ∃ front r back, resp = front ++ r :: back ∧ id = r.ID ∧ ∀ r' ∈ back, id ≠ r'.ID := by
  induction resp with
  | nil =>
    obtain ⟨r, hr, _⟩ := h
    exact absurd hr (List.not_mem_nil _)
  | cons a t ih =>
    by_cases ht : ∃ r ∈ t, id = r.ID
    · obtain ⟨front, r, back, e, h1, h2⟩ := ih ht
      exact ⟨a :: front, r, back, by rw [e]; rfl, h1, h2⟩
    · obtain ⟨r, hr, hid⟩ := h
      rcases List.mem_cons.1 hr with e | e
      · subst e
        exact ⟨[], r, t, rfl, hid, fun r' hr' e' => ht ⟨r', hr', e'⟩⟩
      · exact absurd ⟨r, e, hid⟩ ht

theorem getElem?_lookupVersions (mods : List mod) (resp : List respEntry) (i : Nat) :
    (lookupVersions mods resp)[i]? = (mods[i]?).map (resolveOne resp) := by
  rw [lookupVersions_eq_map, List.getElem?_map]

theorem mem_lookupVersions {mods : List mod} {resp : List respEntry} {m : mod} :
    m ∈ lookupVersions mods resp ↔ ∃ a ∈ mods, resolveOne resp a = m := by
  rw [lookupVersions_eq_map, List.mem_map]

/-- C5: after the matching loop a record whose `modid` is the slug of a response entry
has the version `findTopVerison` of the game versions of the last such entry (its
`fname` and `modid` unchanged); every record whose `modid` is the slug of at least one
entry has the version computed from such an entry; and two records with the same
matched `modid` end with the same version. -/
theorem lookupVersions_matched (mods : List mod) (resp : List respEntry) :
    (∀ (i : Nat) (m : mod) (front back : List respEntry) (r : respEntry),
      mods[i]? = some m → resp = front ++ r :: back → m.modid = r.ID →
      (∀ r' ∈ back, m.modid ≠ r'.ID) →
      (lookupVersions mods resp)[i]? =
        some { m with version := findTopVerison r.GameVersions }) ∧
    (∀ (i : Nat) (m : mod), mods[i]? = some m → (∃ r ∈ resp, m.modid = r.ID) →
      ∃ r ∈ resp, m.modid = r.ID ∧
        (lookupVersions mods resp)[i]? =
          some { m with version := findTopVerison r.GameVersions }) ∧
    (∀ m1 ∈ lookupVersions mods resp, ∀ m2 ∈ lookupVersions mods resp,
      m1.modid = m2.modid → (∃ r ∈ resp, m1.modid = r.ID) → m1.version = m2.version) := by
  refine ⟨?_, ?_, ?_⟩
  · intro i m front back r hi hresp hr hback
    rw [getElem?_lookupVersions, hi, hresp, Option.map_some', resolveOne_last front back r m hr hback]
  · intro i m hi hex
    obtain ⟨front, r, back, e, hr, hback⟩ := exists_last_match resp m.modid hex
    refine ⟨r, by rw [e]; simp, hr, ?_⟩
    rw [getElem?_lookupVersions, hi, Option.map_some']
    conv_lhs => rw [e]
    rw [resolveOne_last front back r m hr hback]
  · intro m1 h1 m2 h2 hid hex
    obtain ⟨a1, _, e1⟩ := mem_lookupVersions.1 h1
    obtain ⟨a2, _, e2⟩ := mem_lookupVersions.1 h2
    have ha1 : a1.modid = m1.modid := by rw [← e1, resolveOne_modid]
    have ha2 : a2.modid = m2.modid := by rw [← e2, resolveOne_modid]
    obtain ⟨front, r, back, e, hr, hback⟩ := exists_last_match resp m1.modid hex
    rw [← e1, ← e2, e, resolveOne_last front back r a1 (by rw [ha1]; exact hr)
        (by rw [ha1]; exact hback),
      resolveOne_last front back r a2 (by rw [ha2, ← hid]; exact hr)
        (by rw [ha2, ← hid]; exact hback)]

/-- Witness of C5: two files with the identifier "foo" and a response with two entries
for "foo"; both records get the version of the last entry. -/
theorem lookupVersions_matched_witness :
    (lookupVersions [⟨"a.jar", "foo", ""⟩, ⟨"b.jar", "bar", ""⟩, ⟨"c.jar", "foo", ""⟩]
      [⟨"foo", ["1.19"]⟩, ⟨"foo", ["1.20", "1.20.1"]⟩])[2]? =
        some ⟨"c.jar", "foo", findTopVerison ["1.20", "1.20.1"]⟩ ∧
    lookupVersions [⟨"a.jar", "foo", ""⟩, ⟨"b.jar", "bar", ""⟩, ⟨"c.jar", "foo", ""⟩]
      [⟨"foo", ["1.19"]⟩, ⟨"foo", ["1.20", "1.20.1"]⟩] =
        [⟨"a.jar", "foo", "v1.20.1"⟩, ⟨"b.jar", "bar", ""⟩, ⟨"c.jar", "foo", "v1.20.1"⟩] :=
  ⟨(lookupVersions_matched
      [⟨"a.jar", "foo", ""⟩, ⟨"b.jar", "bar", ""⟩, ⟨"c.jar", "foo", ""⟩]
      [⟨"foo", ["1.19"]⟩, ⟨"foo", ["1.20", "1.20.1"]⟩]).1 2 ⟨"c.jar", "foo", ""⟩
      [⟨"foo", ["1.19"]⟩] [] ⟨"foo", ["1.20", "1.20.1"]⟩ rfl rfl rfl
      (fun _ h => absurd h (List.not_mem_nil _)),
    by decide⟩

theorem extractModID_cons_other (f : zipFile) (rest : List zipFile)
    (h : f.Name ≠ "fabric.mod.json") : extractModID (f :: rest) = extractModID rest := by
  rw [extractModID, if_pos h]

theorem extractModID_cons_id (f : zipFile) (rest : List zipFile)
    (modInfo : List (String × jsonValue)) (s : String) (hn : f.Name = "fabric.mod.json")
    (hd : f.decoded = some modInfo) (hid : modInfo.lookup "id" = some (jsonValue.str s)) :
    extractModID (f :: rest) = some s := by
  rw [extractModID, if_neg (not_not.2 hn), hd]
  simp only [hid]

theorem extractModID_cons_noid (f : zipFile) (rest : List zipFile)
    (modInfo : List (String × jsonValue)) (hd : f.decoded = some modInfo)
    (hid : ∀ t, modInfo.lookup "id" ≠ some (jsonValue.str t)) :
    extractModID (f :: rest) = extractModID rest := by
  rw [extractModID]
  by_cases hn : f.Name ≠ "fabric.mod.json"
  · rw [if_pos hn]
  · rw [if_neg hn, hd]
    dsimp only
    split
    · rename_i t ht
      exact absurd ht (hid t)
    · rfl

theorem extractModID_skip (front rest : List zipFile)
    (h : ∀ g ∈ front, g.Name = "fabric.mod.json" →
      ∃ mi, g.decoded = some mi ∧ ∀ t, mi.lookup "id" ≠ some (jsonValue.str t)) :
    extractModID (front ++ rest) = extractModID rest := by
  induction front with
  | nil => rfl
  | cons g gs ih =>
    rw [List.cons_append]
    have ih2 := ih (fun g' hg' => h g' (List.mem_cons_of_mem _ hg'))
    by_cases hn : g.Name = "fabric.mod.json"
    · obtain ⟨mi, hd, hid⟩ := h g (List.mem_cons_self _ _) hn
      rw [extractModID_cons_noid g _ mi hd hid, ih2]
    · rw [extractModID_cons_other g _ hn, ih2]

/-- C8: on an archive with no entry named "fabric.mod.json" `extractModID` returns the
empty string, and on an archive with exactly one such entry, whose content decodes to
an object with the string `s` under "id", it returns `s`. -/
theorem extractModID_spec (modZip : List zipFile) :
    ((∀ g ∈ modZip, g.Name ≠ "fabric.mod.json") → extractModID modZip = some "") ∧
    (∀ (front back : List zipFile) (f : zipFile) (modInfo : List (String × jsonValue))
      (s : String), modZip = front ++ f :: back →
      (∀ g ∈ front, g.Name ≠ "fabric.mod.json") → (∀ g ∈ back, g.Name ≠ "fabric.mod.json") →
      f.Name = "fabric.mod.json" → f.decoded = some modInfo →
      modInfo.lookup "id" = some (jsonValue.str s) → extractModID modZip = some s) := by
  constructor
  · intro h
    have := extractModID_skip modZip [] (fun g hg hn => absurd hn (h g hg))
    rw [List.append_nil] at this
    rw [this]; rfl
  · intro front back f modInfo s hz hfront _ hn hd hid
    rw [hz, extractModID_skip front _ (fun g hg hn => absurd hn (hfront g hg))]
    exact extractModID_cons_id f back modInfo s hn hd hid

/-- Witness of C8: an archive without the metadata entry gives the empty string, and
one whose metadata entry decodes to the object with "id" "examplemod" gives
"examplemod". -/
theorem extractModID_spec_witness :
    extractModID [⟨"META-INF/MANIFEST.MF", none⟩, ⟨"icon.png", none⟩] = some "" ∧
    extractModID [⟨"META-INF/MANIFEST.MF", none⟩,
      ⟨"fabric.mod.json", some [("id", jsonValue.str "examplemod")]⟩,
      ⟨"icon.png", none⟩] = some "examplemod" :=
  ⟨(extractModID_spec [⟨"META-INF/MANIFEST.MF", none⟩, ⟨"icon.png", none⟩]).1 (by decide),
    (extractModID_spec [⟨"META-INF/MANIFEST.MF", none⟩,
      ⟨"fabric.mod.json", some [("id", jsonValue.str "examplemod")]⟩,
      ⟨"icon.png", none⟩]).2 [⟨"META-INF/MANIFEST.MF", none⟩] [⟨"icon.png", none⟩]
      ⟨"fabric.mod.json", some [("id", jsonValue.str "examplemod")]⟩
      [("id", jsonValue.str "examplemod")] "examplemod" rfl (by decide) (by decide) rfl rfl rfl⟩

/-- Counterexample to C9: the first entry named "fabric.mod.json" decodes to an object
whose "id" is a number, a second one has the string "x" under "id".  `extractModID`
returns "x", not the empty string, and not what it returns on the archive cut after
the first matching entry. -/
theorem extractModID_first_entry_counterexample :
    extractModID [⟨"fabric.mod.json", some [("id", jsonValue.number 5)]⟩,
      ⟨"fabric.mod.json", some [("id", jsonValue.str "x")]⟩] = some "x" ∧
    extractModID [⟨"fabric.mod.json", some [("id", jsonValue.number 5)]⟩] = some "" ∧
    extractModID [⟨"fabric.mod.json", some [("id", jsonValue.number 5)]⟩,
      ⟨"fabric.mod.json", some [("id", jsonValue.str "x")]⟩] ≠
      extractModID [⟨"fabric.mod.json", some [("id", jsonValue.number 5)]⟩] := by
  decide

/-- C9 (amended): `extractModID` skips the entries named "fabric.mod.json" that decode
to an object whose "id" is absent or not a string and stops at the first one with a
string "id": it returns that string, which is also its result on the archive cut just
after that entry, whatever entries follow; on the entries before it alone the result
is the empty string. -/
theorem extractModID_first_string_id (front back : List zipFile) (f : zipFile)
    (modInfo : List (String × jsonValue)) (s : String)
    (hfront : ∀ g ∈ front, g.Name = "fabric.mod.json" →
      ∃ mi, g.decoded = some mi ∧ ∀ t, mi.lookup "id" ≠ some (jsonValue.str t))
    (hn : f.Name = "fabric.mod.json") (hd : f.decoded = some modInfo)
    (hid : modInfo.lookup "id" = some (jsonValue.str s)) :
    extractModID (front ++ f :: back) = some s ∧
    extractModID (front ++ f :: back) = extractModID (front ++ [f]) ∧
    extractModID front = some "" := by
  have h1 : extractModID (front ++ f :: back) = some s := by
    rw [extractModID_skip front _ hfront]
    exact extractModID_cons_id f back modInfo s hn hd hid
  have h2 : extractModID (front ++ [f]) = some s := by
    rw [extractModID_skip front _ hfront]
    exact extractModID_cons_id f [] modInfo s hn hd hid
  refine ⟨h1, by rw [h1, h2], ?_⟩
  have := extractModID_skip front [] hfront
  rw [List.append_nil] at this
  rw [this]; rfl

/-- Witness of C9 (amended): a metadata entry with a numeric "id", then one with the
string "x", then one with the string "y". -/
theorem extractModID_first_string_id_witness :
    extractModID ([⟨"fabric.mod.json", some [("id", jsonValue.number 5)]⟩] ++
      ⟨"fabric.mod.json", some [("id", jsonValue.str "x")]⟩ ::
      [⟨"fabric.mod.json", some [("id", jsonValue.str "y")]⟩]) = some "x" ∧
    extractModID ([⟨"fabric.mod.json", some [("id", jsonValue.number 5)]⟩] ++
      ⟨"fabric.mod.json", some [("id", jsonValue.str "x")]⟩ ::
      [⟨"fabric.mod.json", some [("id", jsonValue.str "y")]⟩]) =
      extractModID ([⟨"fabric.mod.json", some [("id", jsonValue.number 5)]⟩] ++
        [⟨"fabric.mod.json", some [("id", jsonValue.str "x")]⟩]) ∧
    extractModID [⟨"fabric.mod.json", some [("id", jsonValue.number 5)]⟩] = some "" :=
  extractModID_first_string_id [⟨"fabric.mod.json", some [("id", jsonValue.number 5)]⟩]
    [⟨"fabric.mod.json", some [("id", jsonValue.str "y")]⟩]
    ⟨"fabric.mod.json", some [("id", jsonValue.str "x")]⟩ [("id", jsonValue.str "x")] "x"
    (fun g hg _ => by
      rw [List.mem_singleton.1 hg]
      exact ⟨[("id", jsonValue.number 5)], rfl, fun t => by simp [List.lookup]⟩)
    rfl rfl rfl

theorem detectModsLoop_skip (ret : List mod) (e : dirEntry) (rest : List dirEntry)
    (h : skipped e) : detectModsLoop ret (e :: rest) = detectModsLoop ret rest := by
  rw [detectModsLoop]
  by_cases h1 : e.IsDir = true
  · rw [if_pos h1]
  · rw [if_neg h1]
    by_cases h2 : (!HasSuffix e.Name ".jar") = true
    · rw [if_pos h2]
    · rw [if_neg h2]
      rcases h with h | h | h | ⟨z, hz, hid⟩
      · exact absurd h h1
      · rw [h] at h2; exact absurd rfl h2
      · rw [h]
      · rw [hz]
        dsimp only
        rw [hid]
        dsimp only
        rw [if_pos rfl]

theorem detectModsLoop_cases (ret : List mod) (e : dirEntry) (rest : List dirEntry) :
    detectModsLoop ret (e :: rest) = detectModsLoop ret rest ∨
    detectModsLoop ret (e :: rest) = none ∨
    ∃ z id, e.IsDir = false ∧ HasSuffix e.Name ".jar" = true ∧ e.opened = some z ∧
      extractModID z = some id ∧ id ≠ "" ∧
      detectModsLoop ret (e :: rest) =
        detectModsLoop (ret ++ [{ fname := e.Name, modid := id, version := "" }]) rest := by
  rw [detectModsLoop]
  by_cases h1 : e.IsDir = true
  · left; rw [if_pos h1]
  · rw [if_neg h1]
    by_cases h2 : (!HasSuffix e.Name ".jar") = true
    · left; rw [if_pos h2]
    · rw [if_neg h2]
      cases ho : e.opened with
      | none => left; rfl
      | some z =>
        dsimp only
        cases hx : extractModID z with
        | none => right; left; rfl
        | some id =>
          dsimp only
          by_cases h3 : id = ""
          · left; rw [if_pos h3]
          · right; right
            refine ⟨z, id, ?_, ?_, rfl, hx, h3, by rw [if_neg h3]⟩
            · cases hd : e.IsDir
              · rfl
              · exact absurd hd h1
            · cases hs : HasSuffix e.Name ".jar"
              · rw [hs] at h2; exact absurd rfl h2
              · rfl

/-- The records that the loop adds to `ret`, in the order of the listing. -/
theorem detectModsLoop_some (l : List dirEntry) (ret recs : List mod)
    (h : detectModsLoop ret l = some recs) :
    ∃ added, recs = ret ++ added ∧
      (added.map (fun r => r.fname)).Sublist (l.map (fun e => e.Name)) ∧
      ∀ r ∈ added, r.modid ≠ "" ∧ r.version = "" ∧
        ∃ e ∈ l, e.Name = r.fname ∧ e.IsDir = false ∧ HasSuffix e.Name ".jar" = true := by
  induction l generalizing ret with
  | nil =>
    rw [detectModsLoop] at h
    cases h
    exact ⟨[], by simp, by simp, by simp⟩
  | cons e rest ih =>
    rcases detectModsLoop_cases ret e rest with hc | hc | ⟨z, id, hdir, hsuf, _, _, hid, hc⟩
    · rw [hc] at h
      obtain ⟨added, h1, h2, h3⟩ := ih ret h
      refine ⟨added, h1, ?_, ?_⟩
      · rw [List.map_cons]
        exact List.Sublist.cons _ h2
      · intro r hr
        obtain ⟨a, b, e', he', c⟩ := h3 r hr
        exact ⟨a, b, e', List.mem_cons_of_mem _ he', c⟩
    · rw [hc] at h
      cases h
    · rw [hc] at h
      obtain ⟨added, h1, h2, h3⟩ := ih _ h
      refine ⟨{ fname := e.Name, modid := id, version := "" } :: added, ?_, ?_, ?_⟩
      · rw [h1, List.append_assoc]; rfl
      · rw [List.map_cons, List.map_cons]
        exact List.Sublist.cons₂ _ h2
      · intro r hr
        rcases List.mem_cons.1 hr with e1 | e1
        · subst e1
          exact ⟨hid, rfl, e, List.mem_cons_self _ _, rfl, hdir, hsuf⟩
        · obtain ⟨a, b, e', he', c⟩ := h3 r e1
          exact ⟨a, b, e', List.mem_cons_of_mem _ he', c⟩

theorem detectModsLoop_drop (front back : List dirEntry) (e : dirEntry) (ret : List mod)
    (h : skipped e) :
    detectModsLoop ret (front ++ e :: back) = detectModsLoop ret (front ++ back) := by
  induction front generalizing ret with
  | nil => exact detectModsLoop_skip ret e back h
  | cons a t ih =>
    simp only [List.cons_append]
    rw [detectModsLoop, detectModsLoop]
    simp only [ih]

/-- The scan ends with a result unless an archive makes `extractModID` end the process. -/
theorem detectModsLoop_returns (l : List dirEntry) (ret : List mod)
    (h : ∀ e ∈ l, ∀ z, e.opened = some z → extractModID z ≠ none) :
    ∃ recs, detectModsLoop ret l = some recs := by
  induction l generalizing ret with
  | nil => exact ⟨ret, rfl⟩
  | cons e rest ih =>
    have ih2 := fun ret => ih ret (fun e' he' => h e' (List.mem_cons_of_mem _ he'))
    rcases detectModsLoop_cases ret e rest with
      hc | hc | ⟨z, id, hdir, hsuf, ho, hx, hid, hc⟩
    · rw [hc]; exact ih2 ret
    · exfalso
      rw [detectModsLoop] at hc
      by_cases h1 : e.IsDir = true
      · rw [if_pos h1] at hc
        obtain ⟨recs, hr⟩ := ih2 ret
        rw [hr] at hc; cases hc
      · rw [if_neg h1] at hc
        by_cases h2 : (!HasSuffix e.Name ".jar") = true
        · rw [if_pos h2] at hc
          obtain ⟨recs, hr⟩ := ih2 ret
          rw [hr] at hc; cases hc
        · rw [if_neg h2] at hc
          cases ho : e.opened with
          | none =>
            rw [ho] at hc
            obtain ⟨recs, hr⟩ := ih2 ret
            dsimp only at hc
            rw [hr] at hc; cases hc
          | some z =>
            rw [ho] at hc
            dsimp only at hc
            cases hx : extractModID z with
            | none => exact h e (List.mem_cons_self _ _) z ho hx
            | some id =>
              rw [hx] at hc
              dsimp only at hc
              by_cases h3 : id = ""
              · rw [if_pos h3] at hc
                obtain ⟨recs, hr⟩ := ih2 ret
                rw [hr] at hc; cases hc
              · rw [if_neg h3] at hc
                obtain ⟨recs, hr⟩ := ih2 (ret ++ [{ fname := e.Name, modid := id, version := "" }])
                rw [hr] at hc; cases hc
    · rw [hc]; exact ih2 _

/-- C10: when the names of the listing are pairwise distinct, every record returned by
`detectMods` has the name of a non-directory entry ending in ".jar" as `fname`, a
non-empty `modid` and an empty `version`; no two records share an `fname`; the records
follow the order of the listing; and an entry that is a directory, lacks the suffix,
fails to open or yields an empty identifier adds no record and does not stop the scan:
the result is that of the listing without it. -/
theorem detectMods_spec (modsFiles : List dirEntry) (recs : List mod)
    (hnames : (modsFiles.map (fun e => e.Name)).Nodup)
    (h : detectMods modsFiles = some recs) :
    (∀ r ∈ recs, r.modid ≠ "" ∧ r.version = "" ∧
      ∃ e ∈ modsFiles, e.Name = r.fname ∧ e.IsDir = false ∧ HasSuffix e.Name ".jar" = true) ∧
    (recs.map (fun r => r.fname)).Nodup ∧
    (recs.map (fun r => r.fname)).Sublist (modsFiles.map (fun e => e.Name)) ∧
    (∀ (front back : List dirEntry) (e : dirEntry), modsFiles = front ++ e :: back →
      (e.IsDir = true ∨ HasSuffix e.Name ".jar" = false ∨ e.opened = none ∨
        ∃ z, e.opened = some z ∧ extractModID z = some "") →
      detectMods (front ++ back) = some recs) := by
  obtain ⟨added, h1, h2, h3⟩ := detectModsLoop_some modsFiles [] recs h
  rw [List.nil_append] at h1
  subst h1
  refine ⟨h3, List.Nodup.sublist h2 hnames, h2, ?_⟩
  intro front back e hm hs
  unfold detectMods at h ⊢
  rw [← detectModsLoop_drop front back e [] hs, ← hm]
  exact h

/-- Witness of C10 on `sampleFolder`: the scan returns the one record of `a.jar`, and
without `c.jar` it returns the same. -/
theorem detectMods_spec_witness :
    detectMods sampleFolder = some [⟨"a.jar", "alpha", ""⟩] ∧
    ((∀ r ∈ [(⟨"a.jar", "alpha", ""⟩ : mod)], r.modid ≠ "" ∧ r.version = "" ∧
      ∃ e ∈ sampleFolder, e.Name = r.fname ∧ e.IsDir = false ∧
        HasSuffix e.Name ".jar" = true) ∧
    ([(⟨"a.jar", "alpha", ""⟩ : mod)].map (fun r => r.fname)).Nodup ∧
    ([(⟨"a.jar", "alpha", ""⟩ : mod)].map (fun r => r.fname)).Sublist
      (sampleFolder.map (fun e => e.Name)) ∧
    (∀ (front back : List dirEntry) (e : dirEntry), sampleFolder = front ++ e :: back →
      (e.IsDir = true ∨ HasSuffix e.Name ".jar" = false ∨ e.opened = none ∨
        ∃ z, e.opened = some z ∧ extractModID z = some "") →
      detectMods (front ++ back) = some [⟨"a.jar", "alpha", ""⟩])) :=
  ⟨by decide, detectMods_spec sampleFolder [⟨"a.jar", "alpha", ""⟩] (by decide) (by decide)⟩

theorem detectMods_version {modsFiles : List dirEntry} {mods : List mod}
    (h : detectMods modsFiles = some mods) : ∀ m ∈ mods, m.version = "" := by
  obtain ⟨added, h1, _, h3⟩ := detectModsLoop_some modsFiles [] mods h
  rw [List.nil_append] at h1
  subst h1
  exact fun m hm => (h3 m hm).2.1

theorem findTopVerison_valid_or_sentinel (versions : List String) :
    semver.IsValid (findTopVerison versions) = true ∨ findTopVerison versions = "no versions" := by
  by_cases h : ∃ l ∈ versions, semver.IsValid ("v" ++ l) = true
  · left
    obtain ⟨hmem, _⟩ := findTopVerison_of_some h
    obtain ⟨l, _, he, hv⟩ := mem_validOf.1 hmem
    rw [he]; exact hv
  · right
    apply findTopVerison_of_none
    intro l hl
    cases hv : semver.IsValid ("v" ++ l)
    · rfl
    · exact absurd ⟨l, hl, hv⟩ h

theorem findTopVerison_ne_empty (versions : List String) : findTopVerison versions ≠ "" := by
  intro h
  rcases findTopVerison_valid_or_sentinel versions with hv | hv
  · rw [h] at hv
    exact absurd hv (by decide)
  · rw [h] at hv
    exact absurd hv (by decide)

/-- Counterexample to C6: `detectMods` returns the record of `a.jar` with the identifier
"alpha"; the response has no entry for "alpha"; after `lookupVersions` the version of
the record is the empty string, which is neither a valid semantic version nor
"no versions". -/
theorem lookupVersions_empty_version_counterexample :
    detectMods sampleFolder = some [⟨"a.jar", "alpha", ""⟩] ∧
    lookupVersions [⟨"a.jar", "alpha", ""⟩] [⟨"beta", ["1.20"]⟩] = [⟨"a.jar", "alpha", ""⟩] ∧
    semver.IsValid "" = false ∧ "" ≠ "no versions" := by
  decide

/-- C6 (amended): for the records that `detectMods` returns and every response, after
`lookupVersions` the version of a record whose `modid` is the slug of a response entry
is a valid semantic version or "no versions" and is not empty, and the version of a
record whose `modid` is the slug of no response entry is the empty string. -/
theorem lookupVersions_version (modsFiles : List dirEntry) (mods : List mod)
    (resp : List respEntry) (h : detectMods modsFiles = some mods) :
    ∀ m ∈ lookupVersions mods resp,
      ((∃ r ∈ resp, m.modid = r.ID) →
        (semver.IsValid m.version = true ∨ m.version = "no versions") ∧ m.version ≠ "") ∧
      ((∀ r ∈ resp, m.modid ≠ r.ID) → m.version = "") := by
  intro m hm
  obtain ⟨a, ha, e⟩ := mem_lookupVersions.1 hm
  have hid : a.modid = m.modid := by rw [← e, resolveOne_modid]
  constructor
  · intro hex
    obtain ⟨front, r, back, e2, hr, hback⟩ := exists_last_match resp m.modid hex
    rw [← e, e2, resolveOne_last front back r a (by rw [hid]; exact hr)
      (by rw [hid]; exact hback)]
    exact ⟨findTopVerison_valid_or_sentinel _, findTopVerison_ne_empty _⟩
  · intro hno
    rw [← e, resolveOne_unmatched resp a (by rw [hid]; exact hno)]
    exact detectMods_version h a ha

/-- Witness of C6 (amended) on `sampleFolder` and a response with an entry for
"alpha". -/
theorem lookupVersions_version_witness :
    lookupVersions [⟨"a.jar", "alpha", ""⟩] [⟨"alpha", ["1.20", "1.20.1", "bogus"]⟩] =
      [⟨"a.jar", "alpha", "v1.20.1"⟩] ∧
    ∀ m ∈ lookupVersions [⟨"a.jar", "alpha", ""⟩] [⟨"alpha", ["1.20", "1.20.1", "bogus"]⟩],
      ((∃ r ∈ [(⟨"alpha", ["1.20", "1.20.1", "bogus"]⟩ : respEntry)], m.modid = r.ID) →
        (semver.IsValid m.version = true ∨ m.version = "no versions") ∧ m.version ≠ "") ∧
      ((∀ r ∈ [(⟨"alpha", ["1.20", "1.20.1", "bogus"]⟩ : respEntry)], m.modid ≠ r.ID) →
        m.version = "") :=
  ⟨by decide, lookupVersions_version sampleFolder [⟨"a.jar", "alpha", ""⟩]
    [⟨"alpha", ["1.20", "1.20.1", "bogus"]⟩] (by decide)⟩

/-- C7: `lookupVersions` keeps the length of the sequence and every record's `fname`
and `modid`, and leaves a record whose `modid` is the slug of no response entry as it
was; for the records that `detectMods` returns, the version of such a record is still
the empty string. -/
theorem lookupVersions_frame (mods : List mod) (resp : List respEntry) :
    (lookupVersions mods resp).length = mods.length ∧
    (lookupVersions mods resp).map (fun m => m.fname) = mods.map (fun m => m.fname) ∧
    (lookupVersions mods resp).map (fun m => m.modid) = mods.map (fun m => m.modid) ∧
    (∀ (i : Nat) (m : mod), mods[i]? = some m → (∀ r ∈ resp, m.modid ≠ r.ID) →
      (lookupVersions mods resp)[i]? = some m) ∧
    (∀ (modsFiles : List dirEntry), detectMods modsFiles = some mods →
      ∀ (i : Nat) (m : mod), mods[i]? = some m → (∀ r ∈ resp, m.modid ≠ r.ID) →
        (lookupVersions mods resp)[i]? = some m ∧ m.version = "") := by
  have hframe : ∀ (i : Nat) (m : mod), mods[i]? = some m → (∀ r ∈ resp, m.modid ≠ r.ID) →
      (lookupVersions mods resp)[i]? = some m := by
    intro i m hi hno
    rw [getElem?_lookupVersions, hi, Option.map_some', resolveOne_unmatched resp m hno]
  refine ⟨?_, ?_, ?_, hframe, ?_⟩
  · rw [lookupVersions_eq_map, List.length_map]
  · rw [lookupVersions_eq_map, List.map_map]
    apply List.map_congr_left
    intro m _
    exact resolveOne_fname resp m
  · rw [lookupVersions_eq_map, List.map_map]
    apply List.map_congr_left
    intro m _
    exact resolveOne_modid resp m
  · intro modsFiles hd i m hi hno
    exact ⟨hframe i m hi hno, detectMods_version hd m (List.getElem?_mem hi)⟩

/-- Witness of C7: the response names "alpha" only; the record of "gamma" is
unchanged. -/
theorem lookupVersions_frame_witness :
    (lookupVersions [⟨"a.jar", "alpha", ""⟩, ⟨"g.jar", "gamma", ""⟩]
      [⟨"alpha", ["1.20"]⟩])[1]? = some ⟨"g.jar", "gamma", ""⟩ ∧
    lookupVersions [⟨"a.jar", "alpha", ""⟩, ⟨"g.jar", "gamma", ""⟩] [⟨"alpha", ["1.20"]⟩] =
      [⟨"a.jar", "alpha", "v1.20"⟩, ⟨"g.jar", "gamma", ""⟩] :=
  ⟨(lookupVersions_frame [⟨"a.jar", "alpha", ""⟩, ⟨"g.jar", "gamma", ""⟩]
      [⟨"alpha", ["1.20"]⟩]).2.2.2.1 1 ⟨"g.jar", "gamma", ""⟩ rfl (by decide),
    by decide⟩

end ModUpdateChecklist
